import Mathlib

/-!
Shallow embedding of the HOTP/TOTP module (`src/onetime.py`).

Bytes are modelled as natural numbers below 256, byte strings as `List Nat`,
and Python text strings as `String` (or their character lists).  The Python
arbitrary-precision integer counter is modelled as `Int`; Python `x & 0xff`
and `x >> 8` on possibly-negative integers are `Int.emod` and `Int.ediv`
with positive divisors, which agree with Python's floor-convention `%`/`>>`.

The module's only external dependency, HMAC-SHA1 with hexadecimal digest
output, is embedded executably below (SHA-1 as in FIPS 180, HMAC as in
RFC 2104 with a 64-byte block, matching Python's `hmac` + `hashlib.sha1`).
-/

/-- Truncation to a 32-bit word. -/
def w32 (n : Nat) : Nat := n % 4294967296

/-- Left rotation of a 32-bit word by `s` bits. -/
def rotl (s n : Nat) : Nat := ((n <<< s) ||| (n >>> (32 - s))) % 4294967296

/-- Big-endian 8-byte encoding of a natural number (used for the SHA-1
length field). -/
def beBytes8 (n : Nat) : List Nat :=
  [n / 2 ^ 56 % 256, n / 2 ^ 48 % 256, n / 2 ^ 40 % 256, n / 2 ^ 32 % 256,
   n / 2 ^ 24 % 256, n / 2 ^ 16 % 256, n / 2 ^ 8 % 256, n % 256]

/-- SHA-1 message padding: append `0x80`, zeros, and the 64-bit bit length,
reaching a multiple of 64 bytes. -/
def sha1Pad (ms : List Nat) : List Nat :=
  ms ++ 0x80 :: List.replicate ((119 - ms.length % 64) % 64) 0 ++ beBytes8 (8 * ms.length)

/-- Group a block of bytes into big-endian 32-bit words. -/
def bytesToWords : List Nat → List Nat
  | a :: b :: c :: d :: rest => (a * 2 ^ 24 + b * 2 ^ 16 + c * 2 ^ 8 + d) :: bytesToWords rest
  | _ => []

/-- SHA-1 message schedule, kept in reverse order: prepend
`rotl 1 (W(t-3) xor W(t-8) xor W(t-14) xor W(t-16))` for `fuel` steps. -/
def schedRev : Nat → List Nat → List Nat
  | 0, ws => ws
  | f + 1, ws =>
      schedRev f (rotl 1 (ws.getD 2 0 ^^^ ws.getD 7 0 ^^^ ws.getD 13 0 ^^^ ws.getD 15 0) :: ws)

/-- The 80 SHA-1 rounds, consuming the schedule words in order. -/
def sha1Rounds : Nat → List Nat → Nat × Nat × Nat × Nat × Nat → Nat × Nat × Nat × Nat × Nat
  | _, [], st => st
  | i, w :: ws, (a, b, c, d, e) =>
      let f :=
        if i < 20 then (b &&& c) ||| ((4294967295 ^^^ b) &&& d)
        else if i < 40 then b ^^^ c ^^^ d
        else if i < 60 then (b &&& c) ||| (b &&& d) ||| (c &&& d)
        else b ^^^ c ^^^ d
      let k :=
        if i < 20 then 0x5A827999
        else if i < 40 then 0x6ED9EBA1
        else if i < 60 then 0x8F1BBCDC
        else 0xCA62C1D6
      sha1Rounds (i + 1) ws (w32 (rotl 5 a + f + e + k + w), a, rotl 30 b, c, d)

/-- One SHA-1 compression step on a 64-byte block. -/
def sha1Compress (h : Nat × Nat × Nat × Nat × Nat) (block : List Nat) :
    Nat × Nat × Nat × Nat × Nat :=
  let ws := (schedRev 64 (bytesToWords block).reverse).reverse
  match h with
  | (h0, h1, h2, h3, h4) =>
    match sha1Rounds 0 ws (h0, h1, h2, h3, h4) with
    | (a, b, c, d, e) => (w32 (h0 + a), w32 (h1 + b), w32 (h2 + c), w32 (h3 + d), w32 (h4 + e))

/-- Fold the compression function over consecutive 64-byte blocks
(`fuel` bounds the recursion; the padded length is always enough). -/
def sha1Blocks : Nat → List Nat → Nat × Nat × Nat × Nat × Nat → Nat × Nat × Nat × Nat × Nat
  | 0, _, h => h
  | _ + 1, [], h => h
  | f + 1, l, h => sha1Blocks f (l.drop 64) (sha1Compress h (l.take 64))

/-- Big-endian bytes of a 32-bit word. -/
def wordBytes (w : Nat) : List Nat :=
  [w / 2 ^ 24 % 256, w / 2 ^ 16 % 256, w / 2 ^ 8 % 256, w % 256]

/-- SHA-1 of a byte string: a 20-byte digest. -/
def sha1 (ms : List Nat) : List Nat :=
  let padded := sha1Pad ms
  match sha1Blocks padded.length padded
      (0x67452301, 0xEFCDAB89, 0x98BADCFE, 0x10325476, 0xC3D2E1F0) with
  | (h0, h1, h2, h3, h4) =>
    wordBytes h0 ++ wordBytes h1 ++ wordBytes h2 ++ wordBytes h3 ++ wordBytes h4

/-- HMAC-SHA1 (RFC 2104, 64-byte block), as computed by Python's
`hmac.new(key, msg, hashlib.sha1)`. -/
def hmacSha1 (key msg : List Nat) : List Nat :=
  let k1 := if 64 < key.length then sha1 key else key
  let k0 := k1 ++ List.replicate (64 - k1.length) 0
  sha1 ((k0.map fun b => b ^^^ 0x5c) ++ sha1 ((k0.map fun b => b ^^^ 0x36) ++ msg))

/-- Lowercase hexadecimal digit character for a value below 16. -/
def hexChar (n : Nat) : Char := if n < 10 then Char.ofNat (48 + n) else Char.ofNat (87 + n)

/-- Hexadecimal rendering of a byte string, two characters per byte:
Python's `.hexdigest()`. -/
def hexdigest (bs : List Nat) : List Char :=
  bs.foldr (fun b acc => hexChar (b / 16) :: hexChar (b % 16) :: acc) []

/-- Numeric value of a hexadecimal digit character (`int(c, 16)` on
characters drawn from `0-9a-f`). -/
def hexVal (c : Char) : Nat := if 97 ≤ c.toNat then c.toNat - 87 else c.toNat - 48

/-- `int(s, 16)` on a string of hexadecimal digit characters. -/
def parseHex (cs : List Char) : Nat := cs.foldl (fun a c => 16 * a + hexVal c) 0

/-- Little-endian decimal digits of `n` (`fuel` bounds the recursion;
`n + 1` is always enough). -/
def decDigitsAux : Nat → Nat → List Nat
  | 0, _ => []
  | f + 1, n => if n < 10 then [n] else n % 10 :: decDigitsAux f (n / 10)

/-- Python's `str` on a non-negative integer: the decimal digit string,
no padding, `"0"` for zero. -/
def toDecStr (n : Nat) : List Char :=
  (decDigitsAux (n + 1) n).reverse.map fun d => Char.ofNat (48 + d)

/-- Python's `s[-digits:]` for a non-negative `digits`: the whole string
when `digits = 0`, otherwise the last `min digits (length s)` characters. -/
def pyTakeLast (digits : Nat) (s : List Char) : List Char :=
  if digits = 0 then s else s.drop (s.length - digits)

/-- `onetime.Truncate`: the offset is the last hexadecimal character of
the digest, the 8-character slice at twice the offset is parsed as
hexadecimal, masked to 31 bits, and rendered in decimal. -/
def Truncate (hmac_sha1 : List Char) : List Char :=
  let offset := hexVal (hmac_sha1.getLastD '0')
  let binary := parseHex ((hmac_sha1.drop (offset * 2)).take 8) &&& 0x7fffffff
  toDecStr binary

/-- `onetime._long_to_byte_array`'s loop: eight iterations, each
prepending `long_num & 0xff` and shifting `long_num` right by 8 bits
(`Int.emod`/`Int.ediv` by 256 match Python's `&`/`>>` on any integer). -/
def longToByteLoop : Nat → Int → List Nat → List Nat
  | 0, _, acc => acc
  | k + 1, n, acc => longToByteLoop k (n / 256) ((n % 256).toNat :: acc)

/-- `onetime._long_to_byte_array`: the counter as eight bytes, most
significant first; values outside 64 bits are silently reduced. -/
def long_to_byte_array (long_num : Int) : List Nat :=
  longToByteLoop 8 long_num []

/-- `onetime.HOTP`: HMAC-SHA1 the 8-byte counter under the key, truncate
the hexadecimal digest, and keep the last `digits` characters. -/
def HOTP (K : List Nat) (C : Int) (digits : Nat := 6) : String :=
  let C_bytes := long_to_byte_array C
  let hmac_sha1 := hexdigest (hmacSha1 K C_bytes)
  ⟨pyTakeLast digits (Truncate hmac_sha1)⟩

/-- Python exception surfaced by the module. -/
inductive PyErr : Type
  | zeroDivision : PyErr
deriving DecidableEq

/-- `onetime.TOTP` with the clock injected: `C = long(now / window)` then
`HOTP`; `window = 0` raises `ZeroDivisionError` at the division. -/
def TOTP (K : List Nat) (digits : Nat := 6) (window : Nat := 30) (now : Nat := 0) :
    Except PyErr String :=
  if window = 0 then .error .zeroDivision
  else .ok (HOTP K (now / window : Nat) digits)

/-- ASCII bytes of the RFC 4226 test key `"12345678901234567890"`. -/
def rfcKey : List Nat :=
  [49, 50, 51, 52, 53, 54, 55, 56, 57, 48, 49, 50, 51, 52, 53, 54, 55, 56, 57, 48]

/-- Big-endian numeric value of a byte string. -/
def fromBEBytes (bs : List Nat) : Nat := bs.foldl (fun a b => 256 * a + b) 0

/-- RFC 4226 byte-level dynamic truncation, as the specification states it:
the offset is the low 4 bits of the last digest byte, the 4-byte slice at
that offset is read as a big-endian 32-bit integer and masked to 31 bits.
Stated from the spec's words, to be compared with the code's
hexadecimal-string-based `Truncate`. -/
def DT (mac : List Nat) : Nat :=
  fromBEBytes ((mac.drop (mac.getLastD 0 % 16)).take 4) &&& 0x7fffffff

/-- Numeric value of a decimal digit string (most significant first). -/
def decimalValue (s : String) : Nat :=
  s.data.foldl (fun a c => 10 * a + (c.toNat - 48)) 0

/-- Value of a little-endian digit list. -/
def ofDigitsLE (l : List Nat) : Nat := l.foldr (fun d acc => d + 10 * acc) 0

/-- Value of a big-endian digit list. -/
def ofDigitsBE (l : List Nat) : Nat := l.foldl (fun a d => 10 * a + d) 0

/-- The 31-bit integer computed inside `Truncate`, before decimal rendering. -/
def truncateVal (hmac_sha1 : List Char) : Nat :=
  parseHex ((hmac_sha1.drop (hexVal (hmac_sha1.getLastD '0') * 2)).take 8) &&& 0x7fffffff

/-- Number of decimal digits of a natural number (one for zero). -/
def numDigits (n : Nat) : Nat := (toDecStr n).length

theorem Truncate_eq_toDecStr (h : List Char) : Truncate h = toDecStr (truncateVal h) := rfl

-- digit-list lemmas

theorem decDigitsAux_ne_nil (f n : Nat) (h : n < f) : decDigitsAux f n ≠ [] := by
  cases f with
  | zero => omega
  | succ f =>
    unfold decDigitsAux
    split <;> simp

theorem decDigitsAux_mem_lt (f n d : Nat) (h : d ∈ decDigitsAux f n) : d < 10 := by
  induction f generalizing n with
  | zero => simp [decDigitsAux] at h
  | succ f ih =>
    unfold decDigitsAux at h
    split at h
    · simp at h; omega
    · rcases List.mem_cons.mp h with h1 | h1
      · omega
      · exact ih _ h1

theorem ofDigitsLE_take_decDigitsAux (f : Nat) :
    ∀ n k, n < f → ofDigitsLE ((decDigitsAux f n).take k) = n % 10 ^ k := by
  induction f with
  | zero => omega
  | succ f ih =>
    intro n k hn
    unfold decDigitsAux
    split
    · cases k with
      | zero => simp [ofDigitsLE, Nat.mod_one]
      | succ k =>
        have h10 : (10:Nat) ≤ 10 ^ (k+1) := by
          calc (10:Nat) = 10 ^ 1 := by norm_num
          _ ≤ 10 ^ (k+1) := Nat.pow_le_pow_right (by norm_num) (by omega)
        have hmod : n % 10 ^ (k+1) = n := Nat.mod_eq_of_lt (by omega)
        simp [ofDigitsLE, hmod]
    · cases k with
      | zero => simp [ofDigitsLE, Nat.mod_one]
      | succ k =>
        simp only [List.take_cons, ofDigitsLE, List.foldr]
        have hrec := ih (n / 10) k (by omega)
        simp only [ofDigitsLE] at hrec
        rw [hrec, pow_succ, Nat.mul_comm (10 ^ k) 10, Nat.mod_mul]

theorem decDigitsAux_length_le (f : Nat) :
    ∀ n k, n < f → 1 ≤ k → n < 10 ^ k → (decDigitsAux f n).length ≤ k := by
  induction f with
  | zero => omega
  | succ f ih =>
    intro n k hn hk hnk
    unfold decDigitsAux
    split
    · simpa using hk
    · simp only [List.length_cons]
      have hk2 : 2 ≤ k := by
        by_contra hc
        interval_cases k
        omega
      have : n / 10 < 10 ^ (k - 1) := by
        apply Nat.div_lt_of_lt_mul
        calc n < 10 ^ k := hnk
        _ = 10 * 10 ^ (k-1) := by
          rw [← pow_succ']
          congr 1
          omega
      have := ih (n / 10) (k - 1) (by omega) (by omega) this
      omega

theorem hexdigest_cons (b : Nat) (bs : List Nat) :
    hexdigest (b :: bs) = hexChar (b / 16) :: hexChar (b % 16) :: hexdigest bs := rfl

theorem hexdigest_drop (bs : List Nat) :
    ∀ o, (hexdigest bs).drop (2 * o) = hexdigest (bs.drop o) := by
  induction bs with
  | nil => intro o; simp [hexdigest]
  | cons b bs ih =>
    intro o
    cases o with
    | zero => simp
    | succ o =>
      rw [hexdigest_cons]
      have h2 : 2 * (o + 1) = 2 * o + 1 + 1 := by omega
      rw [h2, List.drop_succ_cons, List.drop_succ_cons, List.drop_succ_cons]
      exact ih o

theorem hexdigest_take (bs : List Nat) :
    ∀ k, (hexdigest bs).take (2 * k) = hexdigest (bs.take k) := by
  induction bs with
  | nil => intro k; simp [hexdigest]
  | cons b bs ih =>
    intro k
    cases k with
    | zero => simp [hexdigest]
    | succ k =>
      rw [hexdigest_cons]
      have h2 : 2 * (k + 1) = 2 * k + 1 + 1 := by omega
      rw [h2, List.take_succ_cons, List.take_succ_cons, List.take_succ_cons, ih k]
      rfl

theorem hexdigest_getLastD (bs : List Nat) :
    ∀ c, bs ≠ [] → (hexdigest bs).getLastD c = hexChar (bs.getLastD 0 % 16) := by
  induction bs with
  | nil => intro c h; exact absurd rfl h
  | cons b bs ih =>
    intro c _
    cases bs with
    | nil => rfl
    | cons x xs =>
      rw [hexdigest_cons, List.getLastD_cons, List.getLastD_cons,
        ih (hexChar (b % 16)) (by simp), List.getLastD_cons, List.getLastD_cons,
        List.getLastD_cons]

theorem toNat_digitChar (d : Nat) (h : d < 10) : (Char.ofNat (48 + d)).toNat = 48 + d := by
  interval_cases d <;> rfl

theorem hexVal_hexChar (d : Nat) (h : d < 16) : hexVal (hexChar d) = d := by
  unfold hexChar
  interval_cases d <;> rfl

theorem ofDigitsBE_append (l : List Nat) (x : Nat) :
    ofDigitsBE (l ++ [x]) = 10 * ofDigitsBE l + x := by
  simp [ofDigitsBE, List.foldl_append]

theorem ofDigitsBE_reverse (l : List Nat) : ofDigitsBE l.reverse = ofDigitsLE l := by
  induction l with
  | nil => rfl
  | cons x xs ih =>
    simp only [List.reverse_cons, ofDigitsBE_append, ih, ofDigitsLE, List.foldr]
    omega

theorem decimalValue_map_digits (l : List Nat) (h : ∀ d ∈ l, d < 10) :
    decimalValue ⟨l.map fun d => Char.ofNat (48 + d)⟩ = ofDigitsBE l := by
  suffices haux : ∀ a, (l.map fun d => Char.ofNat (48 + d)).foldl
      (fun a c => 10 * a + (c.toNat - 48)) a = l.foldl (fun a d => 10 * a + d) a by
    exact haux 0
  induction l with
  | nil => intro a; rfl
  | cons x xs ih =>
    intro a
    have hx : x < 10 := h x (by simp)
    simp only [List.map_cons, List.foldl_cons, toNat_digitChar x hx]
    rw [ih (fun d hd => h d (by simp [hd]))]
    congr 1
    omega

theorem pyTakeLast_toDecStr (n d : Nat) (hd : 1 ≤ d) :
    pyTakeLast d (toDecStr n) =
      (((decDigitsAux (n + 1) n).take d).reverse.map fun x => Char.ofNat (48 + x)) := by
  unfold pyTakeLast toDecStr
  rw [if_neg (by omega)]
  set l := decDigitsAux (n + 1) n with hl
  rw [List.length_map, List.length_reverse, ← List.map_drop, List.drop_reverse]
  rcases le_or_lt d l.length with h | h
  · have h1 : l.length - (l.length - d) = d := by omega
    rw [h1]
  · have h1 : l.length - (l.length - d) = l.length := by omega
    have h2 : l.length ≤ d := by omega
    rw [h1, List.take_length, List.take_of_length_le h2]

theorem parseHex_hexdigest (bs : List Nat) (h : ∀ b ∈ bs, b < 256) :
    parseHex (hexdigest bs) = fromBEBytes bs := by
  suffices haux : ∀ a, (hexdigest bs).foldl (fun a c => 16 * a + hexVal c) a
      = bs.foldl (fun a b => 256 * a + b) a from haux 0
  induction bs with
  | nil => intro a; rfl
  | cons b bs ih =>
    intro a
    have hb : b < 256 := h b (by simp)
    rw [hexdigest_cons]
    simp only [List.foldl_cons]
    rw [hexVal_hexChar (b / 16) (by omega), hexVal_hexChar (b % 16) (by omega),
      ih fun x hx => h x (by simp [hx])]
    congr 1
    omega

theorem sha1_length (ms : List Nat) : (sha1 ms).length = 20 := by
  rcases h : sha1Blocks (sha1Pad ms).length (sha1Pad ms)
      (0x67452301, 0xEFCDAB89, 0x98BADCFE, 0x10325476, 0xC3D2E1F0) with ⟨a, b, c, d, e⟩
  simp [sha1, h, wordBytes]

theorem sha1_mem_lt (ms : List Nat) (x : Nat) (hx : x ∈ sha1 ms) : x < 256 := by
  rcases h : sha1Blocks (sha1Pad ms).length (sha1Pad ms)
      (0x67452301, 0xEFCDAB89, 0x98BADCFE, 0x10325476, 0xC3D2E1F0) with ⟨a, b, c, d, e⟩
  simp [sha1, h, wordBytes] at hx
  rcases hx with rfl | rfl | rfl | rfl | rfl | rfl | rfl | rfl | rfl | rfl | rfl | rfl | rfl |
    rfl | rfl | rfl | rfl | rfl | rfl | rfl <;> omega

theorem hmacSha1_length (key msg : List Nat) : (hmacSha1 key msg).length = 20 := by
  simp [hmacSha1, sha1_length]

theorem hmacSha1_mem_lt (key msg : List Nat) (x : Nat) (hx : x ∈ hmacSha1 key msg) :
    x < 256 := by
  simp only [hmacSha1] at hx
  exact sha1_mem_lt _ _ hx

theorem hmacSha1_ne_nil (key msg : List Nat) : hmacSha1 key msg ≠ [] := by
  intro h
  have := hmacSha1_length key msg
  rw [h] at this
  simp at this

theorem truncateVal_hexdigest (mac : List Nat) (hne : mac ≠ [])
    (hb : ∀ b ∈ mac, b < 256) : truncateVal (hexdigest mac) = DT mac := by
  unfold truncateVal DT
  rw [hexdigest_getLastD mac '0' hne, hexVal_hexChar _ (by omega),
    Nat.mul_comm _ 2, hexdigest_drop]
  have h8 : (8 : Nat) = 2 * 4 := rfl
  rw [h8, hexdigest_take, parseHex_hexdigest]
  intro b hbm
  exact hb b (List.mem_of_mem_drop (List.mem_of_mem_take hbm))

theorem HOTP_eq (K : List Nat) (C : Int) (d : Nat) :
    HOTP K C d = ⟨pyTakeLast d (toDecStr (DT (hmacSha1 K (long_to_byte_array C))))⟩ := by
  simp only [HOTP]
  rw [Truncate_eq_toDecStr,
    truncateVal_hexdigest _ (hmacSha1_ne_nil _ _) (hmacSha1_mem_lt _ _)]

theorem longToByteLoop_congr : ∀ (k : Nat) (n m : Int) (acc : List Nat),
    n % (256 ^ k) = m % (256 ^ k) → longToByteLoop k n acc = longToByteLoop k m acc := by
  intro k
  induction k with
  | zero => intro n m acc h; rfl
  | succ k ih =>
    intro n m acc h
    have hdvd : (256 : Int) ∣ 256 ^ (k + 1) := Dvd.intro (256 ^ k) (by ring)
    have h1 : n % 256 = m % 256 := by
      rw [← Int.emod_emod_of_dvd n hdvd, ← Int.emod_emod_of_dvd m hdvd, h]
    have key : ∀ x : Int, (x / 256) % (256 ^ k) = ((x % 256 ^ (k + 1)) / 256) % (256 ^ k) := by
      intro x
      conv_lhs => rw [← Int.ediv_add_emod x (256 ^ (k + 1))]
      have hx : (256 : Int) ^ (k + 1) * (x / 256 ^ (k + 1)) + x % 256 ^ (k + 1)
          = x % 256 ^ (k + 1) + (256 ^ k * (x / 256 ^ (k + 1))) * 256 := by ring
      rw [hx, Int.add_mul_ediv_right _ _ (by norm_num), Int.add_mul_emod_self_left]
    have h2 : (n / 256) % (256 ^ k) = (m / 256) % (256 ^ k) := by
      rw [key n, key m, h]
    unfold longToByteLoop
    rw [h1]
    exact ih _ _ _ h2

theorem long_to_byte_array_emod (C : Int) :
    long_to_byte_array C = long_to_byte_array (C % 2 ^ 64) := by
  unfold long_to_byte_array
  apply longToByteLoop_congr
  have h : (256 : Int) ^ 8 = 2 ^ 64 := by norm_num
  rw [h, Int.emod_emod_of_dvd _ dvd_rfl]

theorem HOTP_counter_emod (K : List Nat) (C : Int) (d : Nat) :
    HOTP K C d = HOTP K (C % 2 ^ 64) d := by
  rw [HOTP_eq, HOTP_eq, long_to_byte_array_emod]

set_option maxRecDepth 1000000 in
set_option maxHeartbeats 1000000 in
/-- C1: with the ASCII key `"12345678901234567890"` and six digits, HOTP
reproduces the RFC 4226 Appendix D codes for counters 0 through 9. -/
theorem hotp_rfc4226_vectors :
    HOTP rfcKey 0 6 = "755224" ∧ HOTP rfcKey 1 6 = "287082" ∧
    HOTP rfcKey 2 6 = "359152" ∧ HOTP rfcKey 3 6 = "969429" ∧
    HOTP rfcKey 4 6 = "338314" ∧ HOTP rfcKey 5 6 = "254676" ∧
    HOTP rfcKey 6 6 = "287922" ∧ HOTP rfcKey 7 6 = "162583" ∧
    HOTP rfcKey 8 6 = "399871" ∧ HOTP rfcKey 9 6 = "520489" :=
  ⟨by decide, by decide, by decide, by decide, by decide,
   by decide, by decide, by decide, by decide, by decide⟩

/-- C9: HOTP is deterministic: the same `(key, counter, digits)` always
yields the same string (the embedding is a pure function of its inputs). -/
theorem hotp_deterministic (K : List Nat) (C : Int) (d : Nat) :
    HOTP K C d = HOTP K C d := rfl

/-- C5: for a positive window, TOTP computes the counter as
`floor(now / window)` and delegates to HOTP, so two timestamps in the same
bucket give identical codes. -/
theorem totp_floor_window (K : List Nat) (d w now : Nat) (hw : 0 < w) :
    TOTP K d w now = .ok (HOTP K ((now / w : Nat) : Int) d) ∧
    ∀ now2 : Nat, now / w = now2 / w → TOTP K d w now = TOTP K d w now2 := by
  constructor
  · unfold TOTP
    rw [if_neg (by omega)]
  · intro now2 h
    unfold TOTP
    rw [if_neg (by omega), if_neg (by omega), h]

/-- Witness for C5 at window 30: timestamps 59 and 31 share bucket 1. -/
theorem totp_floor_window_witness :
    0 < 30 ∧ TOTP rfcKey 6 30 59 = TOTP rfcKey 6 30 31 :=
  ⟨by norm_num, (totp_floor_window rfcKey 6 30 59 (by norm_num)).2 31 (by norm_num)⟩

set_option maxRecDepth 1000000 in
/-- C4 counterexample: `HOTP` with `digits = 0` does not fail: it returns
the whole untruncated decimal string, a ten-character code. -/
theorem hotp_zero_digits_returns_code : HOTP rfcKey 0 0 = "1284755224" := by decide

/-- C4 amended: `digits = 0` is not rejected: `HOTP` returns the full
decimal string produced by `Truncate` (Python's `s[-0:]` is the whole
string); `TOTP` with `window = 0` raises `ZeroDivisionError` (not an
`InvalidArgument` validation) and produces no code. -/
theorem hotp_totp_zero_argument (K : List Nat) (C : Int) (d now : Nat) :
    HOTP K C 0 = ⟨Truncate (hexdigest (hmacSha1 K (long_to_byte_array C)))⟩ ∧
    TOTP K d 0 now = .error .zeroDivision := by
  constructor
  · simp [HOTP, pyTakeLast]
  · rfl

set_option maxRecDepth 1000000 in
/-- C6 counterexample: a counter of `2 ^ 64` is not rejected: it encodes
to the same eight zero bytes as counter 0, and HOTP silently returns
counter 0's code. -/
theorem counter_overflow_not_rejected :
    long_to_byte_array (2 ^ 64) = List.replicate 8 0 ∧
    HOTP rfcKey (2 ^ 64) 6 = "755224" :=
  ⟨by decide, by decide⟩

/-- C6 amended: the encoder never fails: any counter is silently reduced
to its low 64 bits, and HOTP returns the code of the reduced counter. -/
theorem counter_silently_truncated (K : List Nat) (C : Int) (d : Nat) :
    long_to_byte_array C = long_to_byte_array (C % 2 ^ 64) ∧
    HOTP K C d = HOTP K (C % 2 ^ 64) d :=
  ⟨long_to_byte_array_emod C, HOTP_counter_emod K C d⟩

set_option maxRecDepth 1000000 in
/-- C7 counterexample: a negative counter is not rejected: `-1` encodes
to eight `0xff` bytes (its two's-complement low 64 bits) and HOTP returns
a code. -/
theorem negative_counter_not_rejected :
    long_to_byte_array (-1) = List.replicate 8 255 ∧
    HOTP rfcKey (-1) 6 = "094451" :=
  ⟨by decide, by decide⟩

/-- C7 amended: a negative counter raises nothing: it is encoded as the
low 64 bits of its two's-complement value, and HOTP returns the code of
the equivalent non-negative counter. -/
theorem negative_counter_accepted (K : List Nat) (C : Int) (d : Nat) (h : C < 0) :
    HOTP K C d = HOTP K (C % 2 ^ 64) d ∧ 0 ≤ C % 2 ^ 64 :=
  ⟨HOTP_counter_emod K C d, Int.emod_nonneg C (by norm_num)⟩

set_option maxRecDepth 1000000 in
/-- Witness for C7 at counter `-1`. -/
theorem negative_counter_accepted_witness :
    (-1 : Int) < 0 ∧
    (HOTP rfcKey (-1) 6 = HOTP rfcKey ((-1) % 2 ^ 64) 6 ∧ 0 ≤ (-1 : Int) % 2 ^ 64) :=
  ⟨by norm_num, negative_counter_accepted rfcKey (-1) 6 (by norm_num)⟩

theorem decimalValue_pyTakeLast (v d : Nat) (hd : 1 ≤ d) :
    decimalValue ⟨pyTakeLast d (toDecStr v)⟩ = v % 10 ^ d := by
  rw [pyTakeLast_toDecStr v d hd, decimalValue_map_digits, ofDigitsBE_reverse,
    ofDigitsLE_take_decDigitsAux (v + 1) v d (Nat.lt_succ_self v)]
  intro x hx
  exact decDigitsAux_mem_lt _ _ _ (List.mem_of_mem_take (List.mem_reverse.mp hx))

/-- C3: for any key, counter and positive digit count, the numeric value
of the HOTP string equals the RFC 4226 byte-level dynamic truncation `DT`
of the HMAC-SHA1 digest, reduced modulo `10 ^ digits`: the code's
hexadecimal-string manipulation computes exactly the byte-level
truncation. -/
theorem hotp_numeric_value (K : List Nat) (C : Nat) (d : Nat)
    (hC : C < 2 ^ 64) (hd : 1 ≤ d) :
    decimalValue (HOTP K (C : Int) d) =
      DT (hmacSha1 K (long_to_byte_array (C : Int))) % 10 ^ d := by
  rw [HOTP_eq]
  exact decimalValue_pyTakeLast _ d hd

set_option maxRecDepth 1000000 in
/-- Witness for C3 at the first RFC vector. -/
theorem hotp_numeric_value_witness :
    (0 : Nat) < 2 ^ 64 ∧ 1 ≤ 6 ∧
    decimalValue (HOTP rfcKey ((0 : Nat) : Int) 6) =
      DT (hmacSha1 rfcKey (long_to_byte_array ((0 : Nat) : Int))) % 10 ^ 6 :=
  ⟨by norm_num, by norm_num, hotp_numeric_value rfcKey 0 6 (by norm_num) (by norm_num)⟩

theorem long_to_byte_array_ofNat (C : Nat) :
    long_to_byte_array (C : Int) =
      [C / 2 ^ 56 % 256, C / 2 ^ 48 % 256, C / 2 ^ 40 % 256, C / 2 ^ 32 % 256,
       C / 2 ^ 24 % 256, C / 2 ^ 16 % 256, C / 2 ^ 8 % 256, C % 256] := by
  simp only [long_to_byte_array, longToByteLoop, List.cons.injEq, and_true]
  refine ⟨?_, ?_, ?_, ?_, ?_, ?_, ?_, ?_⟩ <;> omega

/-- C8: for counters below `2 ^ 64` the encoder produces exactly eight
bytes whose big-endian value is the counter itself; counter 0 encodes as
eight zero bytes and counter `2 ^ 32` has a non-zero upper half. -/
theorem byte_encoder_big_endian (C : Nat) (h : C < 2 ^ 64) :
    (long_to_byte_array (C : Int)).length = 8 ∧
    fromBEBytes (long_to_byte_array (C : Int)) = C ∧
    long_to_byte_array 0 = List.replicate 8 0 ∧
    (long_to_byte_array (2 ^ 32)).take 4 ≠ List.replicate 4 0 := by
  rw [long_to_byte_array_ofNat]
  refine ⟨rfl, ?_, by decide, by decide⟩
  simp only [fromBEBytes, List.foldl_cons, List.foldl_nil]
  omega

/-- Witness for C8 at counter 5. -/
theorem byte_encoder_big_endian_witness :
    (5 : Nat) < 2 ^ 64 ∧ fromBEBytes (long_to_byte_array ((5 : Nat) : Int)) = 5 :=
  ⟨by norm_num, (byte_encoder_big_endian 5 (by norm_num)).2.1⟩

theorem string_mk_length (l : List Char) : (String.mk l).length = l.length := rfl

theorem string_mk_ne_empty (l : List Char) (h : l ≠ []) : String.mk l ≠ "" := by
  intro he
  apply h
  have hd := congrArg String.data he
  simpa using hd

set_option maxRecDepth 1000000 in
/-- C2: the code violates the zero-padding length invariant: with the RFC
key, counter 7 and nine digits, the returned string has only eight
characters, where the claim requires the nine-character `"082162583"`
(`str(binary)` is sliced without any zero-padding). -/
theorem hotp_length_not_padded :
    HOTP rfcKey 7 9 = "82162583" ∧ (HOTP rfcKey 7 9).length = 8 :=
  ⟨by decide, by decide⟩

/-- C10: for any key, a 64-bit counter and a positive digit count, HOTP
(a total function here: the Python code raises nothing on these inputs)
returns a non-empty string of decimal digit characters whose length is
`min digits (number of decimal digits of the truncated value)`, hence
never more than `digits` and never more than 10. -/
theorem hotp_output_shape (K : List Nat) (C : Nat) (d : Nat)
    (hC : C < 2 ^ 64) (hd : 1 ≤ d) :
    (HOTP K (C : Int) d).length =
      min d (numDigits (DT (hmacSha1 K (long_to_byte_array (C : Int))))) ∧
    (HOTP K (C : Int) d).length ≤ d ∧
    (HOTP K (C : Int) d).length ≤ 10 ∧
    HOTP K (C : Int) d ≠ "" ∧
    ∀ c ∈ (HOTP K (C : Int) d).data, 48 ≤ c.toNat ∧ c.toNat ≤ 57 := by
  rw [HOTP_eq, pyTakeLast_toDecStr _ d hd]
  set v := DT (hmacSha1 K (long_to_byte_array (C : Int))) with hv
  set digs := decDigitsAux (v + 1) v with hdigs
  have hv31 : v < 2 ^ 31 := by
    have hva : v ≤ 0x7fffffff := Nat.and_le_right
    omega
  have hv10 : v < 10 ^ 10 := lt_of_lt_of_le hv31 (by norm_num)
  have hlen10 : digs.length ≤ 10 :=
    decDigitsAux_length_le (v + 1) v 10 (Nat.lt_succ_self v) (by norm_num) hv10
  have hlenpos : 0 < digs.length :=
    List.length_pos.mpr (decDigitsAux_ne_nil (v + 1) v (Nat.lt_succ_self v))
  have hnum : numDigits v = digs.length := by
    simp [numDigits, toDecStr, ← hdigs]
  have hmaplen :
      ((digs.take d).reverse.map fun x => Char.ofNat (48 + x)).length = min d digs.length := by
    simp
  refine ⟨?_, ?_, ?_, ?_, ?_⟩
  · rw [string_mk_length, hmaplen, hnum]
  · rw [string_mk_length, hmaplen]
    omega
  · rw [string_mk_length, hmaplen]
    omega
  · apply string_mk_ne_empty
    intro he
    have := congrArg List.length he
    rw [hmaplen] at this
    simp only [List.length_nil] at this
    omega
  · intro c hc
    have hc2 : c ∈ (digs.take d).reverse.map fun x => Char.ofNat (48 + x) := hc
    rcases List.mem_map.mp hc2 with ⟨x, hx, rfl⟩
    have hx10 : x < 10 :=
      decDigitsAux_mem_lt _ _ _ (List.mem_of_mem_take (List.mem_reverse.mp hx))
    rw [toNat_digitChar x hx10]
    omega

set_option maxRecDepth 1000000 in
/-- Witness for C10 at the first RFC vector. -/
theorem hotp_output_shape_witness :
    (0 : Nat) < 2 ^ 64 ∧ 1 ≤ 6 ∧ (HOTP rfcKey ((0 : Nat) : Int) 6).length ≤ 6 :=
  ⟨by norm_num, by norm_num,
    (hotp_output_shape rfcKey 0 6 (by norm_num) (by norm_num)).2.1⟩
